import Mathlib

/-!
# DiscordAvatarDownloader: a verification development for `main.go`

The program has three functions: `sanitize`, `download` and `main`.

Modelling conventions.

* A Go `string` is modelled as `Str := List Char`.  Every delimiter the program looks
  for (`/`, `?`, `.webp`, the characters of the sanitizer class) is ASCII, so on
  well-formed UTF-8 text the byte view of Go and the code-point view used here agree.
* Library functions (`strings.Contains`, `strings.Split`, `strings.Replace`,
  `regexp.ReplaceAllString` for a one-character class, `filepath.Base`, `filepath.Dir`,
  `filepath.Clean`, `filepath.Join`) are modelled after the Go standard library, for a
  POSIX target: the only path separator is `/` and there are no volume names.
* An index expression that would panic in Go returns `none`.  A pointer that may be nil
  is an `Option`; dereferencing `none` is a panic, which ends the program.
* What the environment answers (HTTP, file system, the chat platform API) is an explicit
  argument; effects are recorded as a list of events.
-/

namespace AvatarDownloader

/-- A Go string. -/
abbrev Str := List Char

/-! ## `strings` -/

/-- Go `strings.HasPrefix s pre`. -/
def hasPrefix (s pre : Str) : Bool := pre.isPrefixOf s

/-- Go `strings.Contains s substr`: some position of `s` starts an occurrence of `substr`. -/
def contains : Str → Str → Bool
  | [], substr => substr.isEmpty
  | c :: cs, substr => hasPrefix (c :: cs) substr || contains cs substr

/-- The loop of `strings.Split` for a non-empty separator.  `skip` counts the characters of
a separator occurrence that are still to be passed over, `cur` holds the piece being
collected, in reverse. -/
def splitAux (sep : Str) : Nat → Str → Str → List Str
  | _, cur, [] => [cur.reverse]
  | skip + 1, cur, _ :: cs => splitAux sep skip cur cs
  | 0, cur, c :: cs =>
    if hasPrefix (c :: cs) sep then cur.reverse :: splitAux sep (sep.length - 1) [] cs
    else splitAux sep 0 (c :: cur) cs

/-- Go `strings.Split s sep`: the pieces of `s` between the occurrences of `sep`; with an
empty separator, `s` is exploded into its characters. -/
def split (s sep : Str) : List Str :=
  if sep = [] then s.map (fun c => [c]) else splitAux sep 0 [] s

/-- Go `strings.Replace s old new 1`: only the first occurrence of `old` is replaced. -/
def replaceFirst (old new : Str) : Str → Str
  | [] => if old = [] then new else []
  | c :: cs =>
    if hasPrefix (c :: cs) old then new ++ (c :: cs).drop old.length
    else c :: replaceFirst old new cs

/-! ## `regexp`, for a class of single characters -/

/-- Go `Regexp.ReplaceAllString src repl` for a regular expression that is one character
class `cls` and a replacement without `$`: every character of the class is a match. -/
def replaceAllClass (cls : Char → Bool) (repl : Str) : Str → Str
  | [] => []
  | c :: cs => if cls c then repl ++ replaceAllClass cls repl cs else c :: replaceAllClass cls repl cs

/-- The class `[:*?"<>|]` of `sanitize`. -/
def invalidChars (c : Char) : Bool :=
  c = ':' || c = '*' || c = '?' || c = Char.ofNat 34 || c = '<' || c = '>' || c = '|'

/-- `sanitize` of `main.go`. -/
def sanitize (name : Str) : Str := replaceAllClass invalidChars ['_'] name

/-! ## `path/filepath` (POSIX) -/

/-- Go `os.IsPathSeparator`. -/
def isPathSeparator (c : Char) : Bool := c = '/'

/-- The first loop of `filepath.Base`: trailing separators are dropped. -/
def trimTrailingSep (path : Str) : Str := (path.reverse.dropWhile isPathSeparator).reverse

/-- The second loop of `filepath.Base`: what follows the last separator. -/
def lastElem (path : Str) : Str := (path.reverse.takeWhile (fun c => !isPathSeparator c)).reverse

/-- Go `filepath.Base`. -/
def Base (path : Str) : Str :=
  if path = [] then ['.']
  else
    let p := lastElem (trimTrailingSep path)
    if p = [] then ['/'] else p

/-- The state of the loop of `filepath.Clean`: the output written so far (`buf`, whose
length is `out.w`), the index `dotdot` below which `..` must not backtrack, whether an
ordinary path element is being copied (the inner loop of the `default` case), and whether
the next character is the second dot of a `..` element already handled (`r += 2`). -/
structure CleanState where
  buf : Str
  dotdot : Nat
  copying : Bool
  skip : Bool

/-- The test `r+1 == n || os.IsPathSeparator(path[r+1])` on the rest of the path. -/
def elemEnds : Str → Bool
  | [] => true
  | c :: _ => isPathSeparator c

/-- The loop `for out.w > dotdot && !os.IsPathSeparator(out.index(out.w)) { out.w-- }`,
started at `w`; it returns the final `out.w`. -/
def backtrackTo (dotdot : Nat) (buf : Str) : Nat → Nat
  | 0 => 0
  | w + 1 =>
    if w + 1 > dotdot && !isPathSeparator (buf.getD (w + 1) '/') then backtrackTo dotdot buf w
    else w + 1

/-- The `..` case of `filepath.Clean` when it can backtrack: `out.w--`, then back to the
previous separator or to `dotdot`. -/
def backtrack (dotdot : Nat) (buf : Str) : Str :=
  buf.take (backtrackTo dotdot buf (buf.length - 1))

/-- The `default` case of `filepath.Clean`: a separator is written before the element
unless the output is empty (or is the leading separator of a rooted path). -/
def startElem (rooted : Bool) (buf : Str) : Str :=
  if (rooted && buf.length != 1) || (!rooted && buf.length != 0) then buf ++ ['/'] else buf

/-- One pass through the body of the loop of `filepath.Clean`: `c` is `path[r]` and `rest`
is what follows it. -/
def cleanStep (rooted : Bool) (st : CleanState) (c : Char) (rest : Str) : CleanState :=
  if st.skip then { st with skip := false }
  else if st.copying then
    if isPathSeparator c then { st with copying := false }
    else { st with buf := st.buf ++ [c] }
  else if isPathSeparator c then st
  else if c = '.' && elemEnds rest then st
  else if c = '.' && hasPrefix rest ['.'] && elemEnds rest.tail then
    if st.buf.length > st.dotdot then
      { st with buf := backtrack st.dotdot st.buf, skip := true }
    else if !rooted then
      let b := (if st.buf.length > 0 then st.buf ++ ['/'] else st.buf) ++ ['.', '.']
      { st with buf := b, dotdot := b.length, skip := true }
    else { st with skip := true }
  else { st with buf := startElem rooted st.buf ++ [c], copying := true }

/-- The loop of `filepath.Clean`, on the part of the path still to be read; at the end an
empty output is turned into `.`. -/
def cleanLoop (rooted : Bool) : CleanState → Str → Str
  | st, [] => if st.buf = [] then ['.'] else st.buf
  | st, c :: rest => cleanLoop rooted (cleanStep rooted st c rest) rest

/-- Go `filepath.Clean`. -/
def Clean (path : Str) : Str :=
  match path with
  | [] => ['.']
  | c :: _ =>
    if isPathSeparator c then cleanLoop true ⟨['/'], 1, false, false⟩ path.tail
    else cleanLoop false ⟨[], 0, false, false⟩ path

/-- Go `strings.Join elems sep`. -/
def joinWith (sep : Str) : List Str → Str
  | [] => []
  | [e] => e
  | e :: es => e ++ sep ++ joinWith sep es

/-- Go `filepath.Join`: the elements from the first non-empty one on, joined and cleaned. -/
def Join : List Str → Str
  | [] => []
  | e :: es => if e ≠ [] then Clean (joinWith ['/'] (e :: es)) else Join es

/-- Go `filepath.Dir`: everything up to the last separator, cleaned. -/
def Dir (path : Str) : Str :=
  Clean (path.reverse.dropWhile (fun c => !isPathSeparator c)).reverse

/-! ## `download` -/

/-- The literal `".webp"`. -/
def webp : Str := ['.', 'w', 'e', 'b', 'p']

/-- The literal `".png"`. -/
def png : Str := ['.', 'p', 'n', 'g']

/-- Lines 33-39 of `download`: the file name resolved from the URL.  `none` stands for the
panic of `parts[0]` on an empty slice. -/
def avatarFileName (url : Str) : Option Str := do
  let avatarFile := Base url
  let avatarFile ← if contains avatarFile ['?'] then (split avatarFile ['?'])[0]? else some avatarFile
  some (replaceFirst webp png avatarFile)

/-- Line 41 of `download`: `serverDir`, the directory the worker creates and writes into. -/
def serverDirOf (out : Str) : Str := Join [out, sanitize (Base (Dir out))]

/-- Lines 33-42 of `download`: `filePath`, the path of the file the worker creates. -/
def filePathOf (url out : Str) : Option Str :=
  (avatarFileName url).map fun avatarFile => Join [serverDirOf out, avatarFile]

/-- The lines `download` prints. -/
inductive LogLine
  | dirError
  | createError
  | saveError
  | success (url : Str)
  deriving DecidableEq, Repr

/-- The effects of a worker, in the order they happen. -/
inductive Event
  | httpGet (url : Str)
  | bodyOpen
  | bodyClose
  | mkdirAll (dir : Str)
  | create (path : Str)
  | fileOpen
  | fileClose
  | copy
  | print (line : LogLine)
  | wgDone
  | panic
  deriving DecidableEq, Repr

/-- What the environment answers to one worker: whether `http.Get` returns an error, the
status code of the response otherwise, and whether `os.MkdirAll`, `os.Create` and `io.Copy`
fail. -/
structure Outcome where
  getErr : Bool
  status : Nat
  mkdirErr : Bool
  createErr : Bool
  copyErr : Bool

/-- `download` of `main.go`, as the list of its effects.  The deferred calls registered so
far run, last registered first, when the function returns. -/
def download (o : Outcome) (url out : Str) : List Event :=
  let deferred0 := [Event.wgDone]
  Event.httpGet url ::
  if o.getErr then deferred0
  else Event.bodyOpen ::
    if o.status ≠ 200 then deferred0
    else
      let deferred1 := Event.bodyClose :: deferred0
      match avatarFileName url with
      | none => Event.panic :: deferred1
      | some avatarFile =>
        let serverDir := serverDirOf out
        let filePath := Join [serverDir, avatarFile]
        Event.mkdirAll serverDir ::
        if o.mkdirErr then Event.print .dirError :: deferred1
        else Event.create filePath ::
          if o.createErr then Event.print .createError :: deferred1
          else
            let deferred2 := Event.fileClose :: deferred1
            Event.fileOpen :: Event.copy ::
            if o.copyErr then Event.print .saveError :: deferred2
            else Event.print (.success url) :: deferred2

/-! ## `main`: the dispatch loop (lines 123-130) -/

/-- The part of `discordgo.User` the program reads. -/
structure User where
  Avatar : Str
  deriving DecidableEq

/-- The part of `discordgo.Member` the program reads.  The field `User` is a pointer
(`*User`); `none` is the nil pointer, which the listing yields for a member object without
`user`.  (A nil `*Member` in the list fails at the same expression, `member.User`.) -/
structure Member where
  User : Option User
  deriving DecidableEq

/-- The wait group counter, the goroutines started so far, each with the arguments
`(url, out)` of its `download` call, and whether the loop has panicked. -/
structure DispatchState where
  counter : Int
  launched : List (Str × Str)
  panicked : Bool

/-- The size argument `"512"` of line 126. -/
def size512 : Str := ['5', '1', '2']

/-- One iteration of the loop over the members (lines 125-129).  `avatarURL` is
`User.AvatarURL` of the `discordgo` library.  `member.User.Avatar` on a nil `User` is a nil
pointer dereference: the loop panics. -/
def dispatchStep (avatarURL : User → Str → Str) (outputDir : Str) (st : DispatchState)
    (member : Member) : DispatchState :=
  match member.User with
  | none => { st with panicked := true }
  | some user =>
    if user.Avatar ≠ [] then
      { st with counter := st.counter + 1,
                launched := st.launched ++ [(avatarURL user size512, outputDir)] }
    else st

/-- The loop over the members; a panic ends it. -/
def dispatchLoop (avatarURL : User → Str → Str) (outputDir : Str) :
    List Member → DispatchState → DispatchState
  | [], st => st
  | member :: rest, st =>
    if (dispatchStep avatarURL outputDir st member).panicked then
      dispatchStep avatarURL outputDir st member
    else dispatchLoop avatarURL outputDir rest (dispatchStep avatarURL outputDir st member)

/-- The loop over the members, from a fresh `sync.WaitGroup`. -/
def dispatch (avatarURL : User → Str → Str) (members : List Member) (outputDir : Str) :
    DispatchState :=
  dispatchLoop avatarURL outputDir members ⟨0, [], false⟩

/-! ## `main`: the loop over the configured servers (lines 102-134) -/

/-- What the environment answers during one iteration: the name of the guild (`none` when
`dg.Guild` fails), whether `os.MkdirAll` fails, the members (`none` when `dg.GuildMembers`
fails). -/
structure GroupEnv where
  guild : Option Str
  mkdirErr : Bool
  members : Option (List Member)

/-- The lines the loop of `main` prints. -/
inductive MainLine
  | fetchError
  | pathError (name : Str)
  | membersError
  | finished (name : Str)
  deriving DecidableEq

/-- The effects of the loop of `main`; `panic` is the crash of the program. -/
inductive MainEvent
  | guild (serverID : Str)
  | mkdirAll (dir : Str)
  | guildMembers (serverID : Str)
  | go (url out : Str)
  | wait
  | print (line : MainLine)
  | panic
  deriving DecidableEq

/-- The body of the loop of `main` for one server identifier. -/
def processGroup (avatarURL : User → Str → Str) (baseDir : Str) (serverID : Str)
    (env : GroupEnv) : List MainEvent :=
  MainEvent.guild serverID ::
  match env.guild with
  | none => [MainEvent.print .fetchError]
  | some name =>
    let outputDir := Join [baseDir, sanitize name]
    MainEvent.mkdirAll outputDir ::
    if env.mkdirErr then [MainEvent.print (.pathError name)]
    else MainEvent.guildMembers serverID ::
      match env.members with
      | none => [MainEvent.print .membersError]
      | some members =>
        (dispatch avatarURL members outputDir).launched.map (fun a => MainEvent.go a.1 a.2)
          ++ if (dispatch avatarURL members outputDir).panicked then [MainEvent.panic]
             else [MainEvent.wait, MainEvent.print (.finished name)]

/-- The loop of `main` over `settings.ServerIDs`, each identifier paired with what the
environment answers during its iteration.  A panic ends the program: no later identifier
is looked at. -/
def mainLoop (avatarURL : User → Str → Str) (baseDir : Str) :
    List (Str × GroupEnv) → List MainEvent
  | [] => []
  | (serverID, env) :: rest =>
    if MainEvent.panic ∈ processGroup avatarURL baseDir serverID env then
      processGroup avatarURL baseDir serverID env
    else processGroup avatarURL baseDir serverID env ++ mainLoop avatarURL baseDir rest

/-! ## The workers of one group running concurrently (lines 123-133) -/

/-- Where `main` stands: in the loop over the members still to be looked at, blocked in
`wg.Wait()`, past the `Finished downloading avatars` line, or crashed by a panic. -/
inductive Pc
  | launching (rest : List Member)
  | waiting
  | finished
  | panicked
  deriving DecidableEq

/-- The wait group counter, for every goroutine started the effects it has still to
perform (none left: it has returned), and the position of `main`. -/
structure Sys where
  counter : Int
  workers : List (List Event)
  pc : Pc
  deriving DecidableEq

/-- Who takes the next step: `main`, or the goroutine started as number `i`. -/
inductive Actor
  | main
  | worker (i : Nat)

/-- One step of the system; `none` when the actor cannot move (`wg.Wait()` with a non-zero
counter, `main` after a panic, a goroutine that has returned or was never started).
`outcome k` is what the environment answers to the goroutine started as number `k`. -/
def step (avatarURL : User → Str → Str) (outcome : Nat → Outcome) (out : Str) :
    Actor → Sys → Option Sys
  | .main, s =>
    match s.pc with
    | .launching (member :: rest) =>
      match member.User with
      | none => some { s with pc := .panicked }
      | some user =>
        if user.Avatar ≠ [] then
          some { counter := s.counter + 1,
                 workers := s.workers ++
                   [download (outcome s.workers.length) (avatarURL user size512) out],
                 pc := .launching rest }
        else some { s with pc := .launching rest }
    | .launching [] => some { s with pc := .waiting }
    | .waiting => if s.counter = 0 then some { s with pc := .finished } else none
    | .finished => none
    | .panicked => none
  | .worker i, s =>
    match s.workers[i]? with
    | some (e :: rest) =>
      some { s with workers := s.workers.set i rest,
                    counter := if e = Event.wgDone then s.counter - 1 else s.counter }
    | _ => none

/-- A schedule run from a state; `none` when some actor of the schedule cannot move. -/
def run (avatarURL : User → Str → Str) (outcome : Nat → Outcome) (out : Str) :
    List Actor → Sys → Option Sys
  | [], s => some s
  | a :: as, s => (step avatarURL outcome out a s).bind (run avatarURL outcome out as)

/-- The state at line 123: a fresh wait group, no goroutine, the whole member list ahead. -/
def initSys (members : List Member) : Sys := ⟨0, [], .launching members⟩

/-! ## Predicates and projections used in the statements -/

/-- An ordinary file name: not empty, free of `/`, and neither `.` nor `..`. -/
def ordinaryName (n : Str) : Prop := n ≠ [] ∧ '/' ∉ n ∧ n ≠ ['.'] ∧ n ≠ ['.', '.']

instance (n : Str) : Decidable (ordinaryName n) :=
  inferInstanceAs (Decidable (n ≠ [] ∧ '/' ∉ n ∧ n ≠ ['.'] ∧ n ≠ ['.', '.']))

/-- The member carries a user object. -/
def hasUser (member : Member) : Bool := member.User.isSome

/-- An eligible member: it carries a user whose avatar identifier is not empty. -/
def eligible (member : Member) : Bool :=
  match member.User with
  | some user => decide (user.Avatar ≠ [])
  | none => false

/-- The worker an eligible member is due: the arguments `(url, out)` of its `download`,
the URL being the 512 avatar URL of the member; `none` for every other member. -/
def workerFor (avatarURL : User → Str → Str) (outputDir : Str) (member : Member) :
    Option (Str × Str) :=
  match member.User with
  | some user =>
    if user.Avatar ≠ [] then some (avatarURL user ['5', '1', '2'], outputDir) else none
  | none => none

/-- The effects a goroutine has still to perform: none, or some that end with its only
`wg.Done()`. -/
def wellFormed (w : List Event) : Prop :=
  w = [] ∨ ∃ pre, w = pre ++ [Event.wgDone] ∧ Event.wgDone ∉ pre

/-- The number of goroutines that have not returned. -/
def running : List (List Event) → Nat
  | [] => 0
  | w :: ws => (if w = [] then 0 else 1) + running ws

/-- The members the loop of `main` has still to look at. -/
def remaining : Pc → List Member
  | .launching rest => rest
  | _ => []

/-- What holds of every state the system reaches from line 123. -/
structure Inv (members : List Member) (s : Sys) : Prop where
  wf : ∀ w ∈ s.workers, wellFormed w
  counter : s.counter = (running s.workers : Int)
  launched : s.pc ≠ Pc.panicked →
    s.workers.length + ((remaining s.pc).filter eligible).length =
      (members.filter eligible).length
  fin : s.pc = Pc.finished → s.counter = 0

/-- The server identifiers for which `dg.Guild` was called, in order. -/
def attempts (evs : List MainEvent) : List Str :=
  evs.filterMap fun
    | .guild serverID => some serverID
    | _ => none

/-- The guild names of the `Finished downloading avatars` lines, in order. -/
def completions (evs : List MainEvent) : List Str :=
  evs.filterMap fun
    | .print (.finished name) => some name
    | _ => none

/-- The goroutines started, each with its arguments `(url, out)`, in order. -/
def launches (evs : List MainEvent) : List (Str × Str) :=
  evs.filterMap fun
    | .go url out => some (url, out)
    | _ => none

/-- The three steps of an iteration all succeed: `dg.Guild`, `os.MkdirAll`,
`dg.GuildMembers`. -/
def groupOk (env : GroupEnv) : Bool :=
  env.guild.isSome && !env.mkdirErr && env.members.isSome

/-- The three steps of the iteration succeed and some listed member lacks its user object:
the dispatch of the group panics. -/
def groupPanics (env : GroupEnv) : Bool :=
  groupOk env && (env.members.getD []).any (fun m => !hasUser m)

/-- What the specification prescribes for one identifier (sections 4.4, 4.5 and 7), with the
panic of a member without user added.  A failed metadata fetch is logged and ends the
iteration; so does a failed creation of the output directory `root/sanitize(name)`, and a
failed member listing.  When the three steps succeed, one worker is launched for each
eligible member, in order, then the dispatcher waits and completion is logged; or, at the
first member without user, the program panics instead. -/
def groupEvents (avatarURL : User → Str → Str) (baseDir : Str) (g : Str × GroupEnv) :
    List MainEvent :=
  match g.2.guild, g.2.mkdirErr, g.2.members with
  | none, _, _ => [MainEvent.guild g.1, MainEvent.print .fetchError]
  | some name, true, _ =>
    [MainEvent.guild g.1, MainEvent.mkdirAll (Join [baseDir, sanitize name]),
      MainEvent.print (.pathError name)]
  | some name, false, none =>
    [MainEvent.guild g.1, MainEvent.mkdirAll (Join [baseDir, sanitize name]),
      MainEvent.guildMembers g.1, MainEvent.print .membersError]
  | some name, false, some members =>
    [MainEvent.guild g.1, MainEvent.mkdirAll (Join [baseDir, sanitize name]),
      MainEvent.guildMembers g.1] ++
    ((members.takeWhile hasUser).filterMap
      (workerFor avatarURL (Join [baseDir, sanitize name]))).map
        (fun a => MainEvent.go a.1 a.2) ++
    if members.all hasUser then [MainEvent.wait, MainEvent.print (.finished name)]
    else [MainEvent.panic]

/-- The groups a run reaches: all of them up to and including the first one whose dispatch
panics. -/
def reached : List (Str × GroupEnv) → List (Str × GroupEnv)
  | [] => []
  | g :: gs => if groupPanics g.2 then [g] else g :: reached gs

/-! ## Example inputs -/

/-- A stand-in for `User.AvatarURL`: the avatar identifier under a fixed host, with the size
as query string. -/
def exampleAvatarURL (u : User) (size : Str) : Str :=
  "https://cdn.example/avatars/".toList ++ u.Avatar ++ ".webp?size=".toList ++ size

/-- An environment in which every step of a worker succeeds. -/
def allFine : Outcome := ⟨false, 200, false, false, false⟩

/-- An environment in which the first goroutine succeeds and every later one gets the
status 404. -/
def exampleOutcome (k : Nat) : Outcome :=
  if k = 0 then allFine else ⟨false, 404, false, false, false⟩

/-- Three members; the second has no avatar. -/
def exampleMembers : List Member :=
  [⟨some ⟨"abc123".toList⟩⟩, ⟨some ⟨[]⟩⟩, ⟨some ⟨"def456".toList⟩⟩]

/-- Two members; the first lacks its user object, the second is eligible. -/
def membersWithoutUser : List Member :=
  [⟨none⟩, ⟨some ⟨"abc123".toList⟩⟩]

/-- Two groups whose three steps succeed; the listing of the first holds a member without
user. -/
def groupsWithoutUser : List (Str × GroupEnv) :=
  [("G1".toList, ⟨some "First".toList, false, some membersWithoutUser⟩),
   ("G2".toList, ⟨some "Second".toList, false, some exampleMembers⟩)]

/-- Three groups: the metadata fetch of the first fails, the member listing of the second
fails, the three steps of the third succeed. -/
def exampleGroups : List (Str × GroupEnv) :=
  [("G1".toList, ⟨none, false, none⟩),
   ("G2".toList, ⟨some "Second".toList, false, none⟩),
   ("G3".toList, ⟨some "Third".toList, false, some exampleMembers⟩)]

/-- A schedule in which the two goroutines run interleaved with the loop of `main`. -/
def exampleSchedule : List Actor :=
  [Actor.main] ++ List.replicate 3 (Actor.worker 0) ++ [Actor.main, Actor.main] ++
    List.replicate 3 (Actor.worker 1) ++ [Actor.main] ++ List.replicate 7 (Actor.worker 0) ++
    [Actor.main]

/-! ## Lemmas on the string functions -/

theorem replaceAllClass_single (cls : Char → Bool) (r : Char) (s : Str) :
    replaceAllClass cls [r] s = s.map (fun c => if cls c then r else c) := by
  induction s with
  | nil => rfl
  | cons c cs ih => by_cases h : cls c <;> simp [replaceAllClass, h, ih]

theorem invalidChars_iff (c : Char) :
    invalidChars c = true ↔ c ∈ [':', '*', '?', Char.ofNat 34, '<', '>', '|'] := by
  simp [invalidChars, or_assoc]

theorem sanitize_eq_map (s : Str) :
    sanitize s = s.map (fun c => if invalidChars c then '_' else c) :=
  replaceAllClass_single invalidChars '_' s

theorem hasPrefix_single (c d : Char) (cs : Str) : hasPrefix (c :: cs) [d] = (d == c) := by
  simp [hasPrefix, List.isPrefixOf]

theorem contains_single (d : Char) (s : Str) : contains s [d] = true ↔ d ∈ s := by
  induction s with
  | nil => simp [contains]
  | cons c cs ih => simp [contains, hasPrefix_single, ih]

theorem splitAux_single_head (d : Char) (s cur : Str) :
    (splitAux [d] 0 cur s)[0]? = some (cur.reverse ++ s.takeWhile (fun c => c != d)) := by
  induction s generalizing cur with
  | nil => simp [splitAux]
  | cons c cs ih =>
    by_cases h : d = c
    · subst h; simp [splitAux, hasPrefix_single, List.takeWhile]
    · have h2 : (c != d) = true := by simp; exact fun e => h e.symm
      simp [splitAux, hasPrefix_single, h, ih, List.takeWhile, h2]

theorem split_single_head (d : Char) (s : Str) :
    (split s [d])[0]? = some (s.takeWhile (fun c => c != d)) := by
  simp [split, splitAux_single_head]

theorem takeWhile_ne_of_not_mem (d : Char) (s : Str) (h : d ∉ s) :
    s.takeWhile (fun c => c != d) = s := by
  induction s with
  | nil => rfl
  | cons c cs ih =>
    simp only [List.mem_cons, not_or] at h
    have h2 : (c != d) = true := by simp; exact fun e => h.1 e.symm
    simp [List.takeWhile, h2, ih h.2]

theorem not_mem_takeWhile_ne (d : Char) (s : Str) : d ∉ s.takeWhile (fun c => c != d) := by
  induction s with
  | nil => simp
  | cons c cs ih =>
    by_cases h : c = d
    · simp [List.takeWhile, h]
    · have h2 : (c != d) = true := by simpa using h
      simp only [List.takeWhile, h2, List.mem_cons, not_or]
      exact ⟨fun e => h e.symm, ih⟩

theorem not_mem_replaceFirst (d : Char) (old new s : Str) (hs : d ∉ s) (hn : d ∉ new) :
    d ∉ replaceFirst old new s := by
  induction s with
  | nil =>
    by_cases h : old = [] <;> simp [replaceFirst, h, hn]
  | cons c cs ih =>
    simp only [List.mem_cons, not_or] at hs
    by_cases h : hasPrefix (c :: cs) old = true
    · simp only [replaceFirst, h, if_true, List.mem_append, not_or]
      refine ⟨hn, fun hm => ?_⟩
      have := List.mem_of_mem_drop hm
      simp only [List.mem_cons] at this
      rcases this with e | e
      · exact hs.1 e
      · exact hs.2 e
    · simp only [replaceFirst, h, Bool.false_eq_true, if_false, List.mem_cons, not_or]
      exact ⟨hs.1, ih hs.2⟩

/-- The name resolved from a URL, in closed form: `filepath.Base`, cut at the first `?`,
first `.webp` replaced. -/
theorem avatarFileName_eq (url : Str) :
    avatarFileName url =
      some (replaceFirst webp png ((Base url).takeWhile (fun c => c != '?'))) := by
  unfold avatarFileName
  by_cases h : contains (Base url) ['?'] = true
  · simp [h, split_single_head]
  · have h2 : '?' ∉ Base url := fun hm => h ((contains_single _ _).2 hm)
    simp [h, takeWhile_ne_of_not_mem _ _ h2]

/-! ## Lemmas on `filepath.Base` and on the rewriting of `.webp` -/

theorem takeWhile_append_stop {p : Char → Bool} (a b : Str) (ha : ∀ x ∈ a, p x = true)
    (hb : b = [] ∨ ∃ c r, b = c :: r ∧ p c = false) : (a ++ b).takeWhile p = a := by
  induction a with
  | nil =>
    rcases hb with rfl | ⟨c, r, rfl, hc⟩
    · rfl
    · simp [List.takeWhile, hc]
  | cons x xs ih =>
    have hx : p x = true := ha x (List.mem_cons_self _ _)
    have ih2 := ih (fun y hy => ha y (List.mem_cons_of_mem _ hy))
    simp [List.takeWhile, hx, ih2]

/-- The base name of a path whose last element `t` is non-empty and free of `/`. -/
theorem Base_append (pre t : Str) (hpre : pre = [] ∨ ∃ q, pre = q ++ ['/'])
    (ht : t ≠ []) (hs : '/' ∉ t) : Base (pre ++ t) = t := by
  have hne : pre ++ t ≠ [] := by simp [ht]
  have hlast : ∃ l r, t.reverse = l :: r ∧ l ≠ '/' := by
    cases hr : t.reverse with
    | nil => exact absurd (List.reverse_eq_nil_iff.1 hr) ht
    | cons l r =>
      refine ⟨l, r, rfl, ?_⟩
      intro hl
      apply hs
      have : l ∈ t.reverse := by rw [hr]; exact List.mem_cons_self _ _
      rw [← hl]
      exact List.mem_reverse.1 this
  have htrim : trimTrailingSep (pre ++ t) = pre ++ t := by
    obtain ⟨l, r, hr, hl⟩ := hlast
    have hd : (t.reverse ++ pre.reverse).dropWhile isPathSeparator = t.reverse ++ pre.reverse := by
      rw [hr]
      simp [List.dropWhile, isPathSeparator, hl]
    unfold trimTrailingSep
    rw [List.reverse_append, hd, ← List.reverse_append, List.reverse_reverse]
  have hlastElem : lastElem (pre ++ t) = t := by
    unfold lastElem
    rw [List.reverse_append, takeWhile_append_stop, List.reverse_reverse]
    · intro x hx
      have hx2 : x ∈ t := List.mem_reverse.1 hx
      have : x ≠ '/' := fun e => hs (e ▸ hx2)
      simp [isPathSeparator, this]
    · rcases hpre with rfl | ⟨q, rfl⟩
      · left; rfl
      · right; exact ⟨'/', q.reverse, by simp, by simp [isPathSeparator]⟩
  unfold Base
  simp [hne, htrim, hlastElem, ht]

theorem hasPrefix_webp_false (stem : Str) (h : ¬ webp <:+: stem) (hne : stem ≠ []) :
    hasPrefix (stem ++ webp) webp = false := by
  rcases stem with _ | ⟨c, _ | ⟨d, _ | ⟨e, _ | ⟨f, _ | ⟨g, s⟩⟩⟩⟩⟩
  · exact absurd rfl hne
  · simp [hasPrefix, List.isPrefixOf, webp]
  · simp [hasPrefix, List.isPrefixOf, webp]
  · simp [hasPrefix, List.isPrefixOf, webp]
  · simp [hasPrefix, List.isPrefixOf, webp]
  · by_contra hp
    apply h
    simp only [hasPrefix, List.isPrefixOf, webp, List.cons_append, Bool.not_eq_false,
      Bool.and_eq_true, beq_iff_eq] at hp
    obtain ⟨h1, h2, h3, h4, h5, -⟩ := hp
    subst h1 h2 h3 h4 h5
    exact ⟨[], s, rfl⟩

/-- The first occurrence of `.webp` in `stem ++ ".webp"` is the final one when `stem`
contains none. -/
theorem replaceFirst_webp (stem : Str) (h : ¬ webp <:+: stem) :
    replaceFirst webp png (stem ++ webp) = stem ++ png := by
  induction stem with
  | nil => decide
  | cons c s ih =>
    have hp := hasPrefix_webp_false (c :: s) h (List.cons_ne_nil _ _)
    have hs : ¬ webp <:+: s := fun hi => h (hi.trans (List.suffix_cons c s).isInfix)
    rw [List.cons_append] at hp ⊢
    simp only [replaceFirst, hp, Bool.false_eq_true, if_false]
    rw [ih hs]
    rfl

/-! ## Lemmas on `filepath.Clean` and `filepath.Join` with an ordinary last element -/

/-- While an element is copied, characters other than `/` go to the output unchanged. -/
theorem cleanLoop_copy (rooted : Bool) (m : Str) (st : CleanState) (hc : st.copying = true)
    (hk : st.skip = false) (hm : '/' ∉ m) (hb : st.buf ≠ [] ∨ m ≠ []) :
    cleanLoop rooted st m = st.buf ++ m := by
  induction m generalizing st with
  | nil =>
    have hb2 : st.buf ≠ [] := hb.resolve_right (fun h => h rfl)
    simp [cleanLoop, hb2]
  | cons c cs ih =>
    simp only [List.mem_cons, not_or] at hm
    have hcne : c ≠ '/' := fun e => hm.1 e.symm
    have hstep : cleanStep rooted st c cs = ⟨st.buf ++ [c], st.dotdot, st.copying, st.skip⟩ := by
      simp [cleanStep, hc, hk, isPathSeparator, hcne]
    rw [cleanLoop, hstep,
      ih ⟨st.buf ++ [c], st.dotdot, st.copying, st.skip⟩ hc hk hm.2 (Or.inl (by simp))]
    simp

/-- An ordinary name read at the start of an element is copied to the output, after a
separator where the output needs one. -/
theorem cleanLoop_ordinary (rooted : Bool) (n : Str) (st : CleanState)
    (hc : st.copying = false) (hk : st.skip = false) (hn : ordinaryName n) :
    cleanLoop rooted st n = startElem rooted st.buf ++ n := by
  obtain ⟨hne, hs, hdot, hdd⟩ := hn
  cases n with
  | nil => exact absurd rfl hne
  | cons c rest =>
    simp only [List.mem_cons, not_or] at hs
    have hsep : isPathSeparator c = false := by
      simp [isPathSeparator]; exact fun e => hs.1 e.symm
    have hcne : c ≠ '/' := fun e => hs.1 e.symm
    have hstep : cleanStep rooted st c rest =
        ⟨startElem rooted st.buf ++ [c], st.dotdot, true, st.skip⟩ := by
      rcases rest with _ | ⟨d, _ | ⟨e, r⟩⟩
      · have : c ≠ '.' := fun h => hdot (by rw [h])
        simp [cleanStep, hc, hk, isPathSeparator, hcne, this]
      · have hd : d ≠ '/' := fun h => hs.2 (by simp [h])
        have : ¬ (c = '.' ∧ d = '.') := fun h => hdd (by rw [h.1, h.2])
        by_cases h1 : c = '.'
        · have h2 : d ≠ '.' := fun h => this ⟨h1, h⟩
          have h3 : ('.' == d) = false := by simp; exact fun e => h2 e.symm
          simp [cleanStep, hc, hk, hcne, elemEnds, isPathSeparator, hd, hasPrefix,
            List.isPrefixOf, h3]
        · simp [cleanStep, hc, hk, isPathSeparator, hcne, h1]
      · have hd : d ≠ '/' := fun h => hs.2 (by simp [h])
        have he : e ≠ '/' := fun h => hs.2 (by simp [h])
        simp [cleanStep, hc, hk, hcne, elemEnds, isPathSeparator, hd, he]
    rw [cleanLoop, hstep,
      cleanLoop_copy rooted rest ⟨startElem rooted st.buf ++ [c], st.dotdot, true, st.skip⟩
        rfl hk hs.2 (Or.inl (by simp))]
    simp

/-- What one pass of the loop does before a separator does not depend on what follows the
separator. -/
theorem cleanStep_before_sep (rooted : Bool) (st : CleanState) (c : Char) (p n : Str) :
    cleanStep rooted st c (p ++ '/' :: n) = cleanStep rooted st c (p ++ ['/']) := by
  rcases p with _ | ⟨d, _ | ⟨e, r⟩⟩ <;>
    simp [cleanStep, elemEnds, isPathSeparator, hasPrefix, List.isPrefixOf]

/-- At the start of an ordinary name the loop leaves an output that ends in the name. -/
theorem cleanLoop_at_name (rooted : Bool) (st : CleanState) (hk : st.skip = false) :
    ∃ pre : Str, ∀ n, ordinaryName n → cleanLoop rooted st n = pre ++ n := by
  by_cases hc : st.copying = true
  · exact ⟨st.buf, fun n hn => cleanLoop_copy rooted n st hc hk hn.2.1 (Or.inr hn.1)⟩
  · exact ⟨startElem rooted st.buf, fun n hn =>
      cleanLoop_ordinary rooted n st (by simpa using hc) hk hn⟩

theorem cleanStep_sep_skip (rooted : Bool) (st : CleanState) (rest : Str) :
    (cleanStep rooted st '/' rest).skip = false := by
  by_cases hk : st.skip = true
  · simp [cleanStep, hk]
  · by_cases hc : st.copying = true
    · simp [cleanStep, hk, hc, isPathSeparator]
    · simp [cleanStep, hk, hc, isPathSeparator]

theorem cleanStep_sep (rooted : Bool) (st : CleanState) (rest : Str) :
    cleanStep rooted st '/' rest = cleanStep rooted st '/' [] := by
  simp [cleanStep, isPathSeparator]

/-- Reading `p`, a separator and an ordinary name leaves an output that ends in the name;
what precedes the name depends on `p` and the state only. -/
theorem cleanLoop_append_ordinary (rooted : Bool) (p : Str) (st : CleanState) :
    ∃ pre : Str, ∀ n, ordinaryName n → cleanLoop rooted st (p ++ '/' :: n) = pre ++ n := by
  induction p generalizing st with
  | nil =>
    obtain ⟨pre, hpre⟩ := cleanLoop_at_name rooted (cleanStep rooted st '/' [])
      (cleanStep_sep_skip rooted st _)
    refine ⟨pre, fun n hn => ?_⟩
    rw [List.nil_append, cleanLoop, cleanStep_sep, hpre n hn]
  | cons c p ih =>
    obtain ⟨pre, hpre⟩ := ih (cleanStep rooted st c (p ++ ['/']))
    refine ⟨pre, fun n hn => ?_⟩
    rw [List.cons_append, cleanLoop, cleanStep_before_sep, hpre n hn]

/-- `filepath.Join` of a directory and an ordinary name ends in the name; what precedes the
name depends on the directory only. -/
theorem Join_ordinary (d : Str) : ∃ pre : Str, ∀ n, ordinaryName n → Join [d, n] = pre ++ n := by
  cases d with
  | nil =>
    refine ⟨[], fun n hn => ?_⟩
    have hn2 := hn
    obtain ⟨hne, hs, -, -⟩ := hn2
    cases n with
    | nil => exact absurd rfl hne
    | cons c rest =>
      simp only [List.mem_cons, not_or] at hs
      have hsep : isPathSeparator c = false := by
        simp [isPathSeparator]; exact fun e => hs.1 e.symm
      simp only [Join, ne_eq, not_true_eq_false, if_false, List.cons_ne_nil, not_false_eq_true,
        if_true, joinWith, Clean, hsep, Bool.false_eq_true]
      rw [cleanLoop_ordinary false (c :: rest) _ rfl rfl hn]
      simp [startElem]
  | cons c d =>
    by_cases hsep : isPathSeparator c = true
    · obtain ⟨pre, hpre⟩ := cleanLoop_append_ordinary true d ⟨['/'], 1, false, false⟩
      refine ⟨pre, fun n hn => ?_⟩
      simp only [Join, ne_eq, List.cons_ne_nil, not_false_eq_true, if_true, joinWith, Clean,
        List.cons_append, hsep, List.tail_cons, List.append_assoc, List.singleton_append]
      exact hpre n hn
    · obtain ⟨pre, hpre⟩ := cleanLoop_append_ordinary false (c :: d) ⟨[], 0, false, false⟩
      refine ⟨pre, fun n hn => ?_⟩
      simp only [Join, ne_eq, List.cons_ne_nil, not_false_eq_true, if_true, joinWith, Clean,
        List.cons_append, hsep, List.append_assoc, List.singleton_append, Bool.false_eq_true,
        if_false]
      exact hpre n hn

/-! ## Lemmas on `download`, the dispatch loop and the concurrent system -/

/-- Every run of `download` ends with its only `wg.Done()`. -/
theorem download_done_last (o : Outcome) (url out : Str) :
    ∃ pre, download o url out = pre ++ [Event.wgDone] ∧ Event.wgDone ∉ pre := by
  unfold download
  by_cases h1 : o.getErr = true
  · exact ⟨[Event.httpGet url], by simp [h1], by simp⟩
  by_cases h2 : o.status = 200
  swap
  · exact ⟨[Event.httpGet url, Event.bodyOpen], by simp [h1, h2], by simp⟩
  cases h3 : avatarFileName url with
  | none => exact ⟨[Event.httpGet url, Event.bodyOpen, Event.panic, Event.bodyClose],
      by simp [h1, h2], by simp⟩
  | some f =>
    by_cases h4 : o.mkdirErr = true
    · exact ⟨[Event.httpGet url, Event.bodyOpen, Event.mkdirAll (serverDirOf out),
        Event.print .dirError, Event.bodyClose], by simp [h1, h2, h4], by simp⟩
    by_cases h5 : o.createErr = true
    · exact ⟨[Event.httpGet url, Event.bodyOpen, Event.mkdirAll (serverDirOf out),
        Event.create (Join [serverDirOf out, f]),
        Event.print .createError, Event.bodyClose], by simp [h1, h2, h4, h5], by simp⟩
    by_cases h6 : o.copyErr = true
    · exact ⟨[Event.httpGet url, Event.bodyOpen, Event.mkdirAll (serverDirOf out),
        Event.create (Join [serverDirOf out, f]), Event.fileOpen, Event.copy,
        Event.print .saveError, Event.fileClose, Event.bodyClose],
        by simp [h1, h2, h4, h5, h6], by simp⟩
    · exact ⟨[Event.httpGet url, Event.bodyOpen, Event.mkdirAll (serverDirOf out),
        Event.create (Join [serverDirOf out, f]), Event.fileOpen, Event.copy,
        Event.print (.success url), Event.fileClose, Event.bodyClose],
        by simp [h1, h2, h4, h5, h6], by simp⟩

/-- The loop over the members, in closed form: it looks at the members before the first
one without user. -/
theorem dispatchLoop_spec (avatarURL : User → Str → Str) (outputDir : Str)
    (members : List Member) (st : DispatchState) (hp : st.panicked = false) :
    (dispatchLoop avatarURL outputDir members st).launched =
        st.launched ++ (members.takeWhile hasUser).filterMap (workerFor avatarURL outputDir) ∧
      (dispatchLoop avatarURL outputDir members st).counter =
        st.counter +
          (((members.takeWhile hasUser).filterMap (workerFor avatarURL outputDir)).length : Int) ∧
      (dispatchLoop avatarURL outputDir members st).panicked = !members.all hasUser := by
  induction members generalizing st with
  | nil => simp [dispatchLoop, hp]
  | cons m ms ih =>
    obtain ⟨u⟩ := m
    cases u with
    | none => simp [dispatchLoop, dispatchStep, hasUser, List.takeWhile]
    | some user =>
      by_cases h : user.Avatar = []
      · have hs : dispatchStep avatarURL outputDir st ⟨some user⟩ = st := by
          simp [dispatchStep, h]
        obtain ⟨h1, h2, h3⟩ := ih st hp
        simp only [dispatchLoop, hs, hp, Bool.false_eq_true, if_false]
        refine ⟨?_, ?_, ?_⟩
        · rw [h1]; simp [hasUser, List.takeWhile, workerFor, h]
        · rw [h2]; simp [hasUser, List.takeWhile, workerFor, h]
        · rw [h3]; simp [hasUser]
      · have hs : dispatchStep avatarURL outputDir st ⟨some user⟩ =
            ⟨st.counter + 1, st.launched ++ [(avatarURL user size512, outputDir)], false⟩ := by
          simp [dispatchStep, h, hp]
        obtain ⟨h1, h2, h3⟩ := ih ⟨st.counter + 1,
          st.launched ++ [(avatarURL user size512, outputDir)], false⟩ rfl
        simp only [dispatchLoop, hs, Bool.false_eq_true, if_false]
        refine ⟨?_, ?_, ?_⟩
        · rw [h1]; simp [hasUser, List.takeWhile, workerFor, h, size512]
        · rw [h2]; simp [hasUser, List.takeWhile, workerFor, h]; ring
        · rw [h3]; simp [hasUser]

theorem wellFormed_tail (e : Event) (rest : List Event) (h : wellFormed (e :: rest)) :
    wellFormed rest ∧ (e = Event.wgDone ↔ rest = []) := by
  rcases h with h | ⟨pre, hp, hn⟩
  · exact absurd h (List.cons_ne_nil _ _)
  · cases pre with
    | nil =>
      simp only [List.nil_append, List.cons.injEq] at hp
      exact ⟨Or.inl hp.2, by simp [hp.1, hp.2]⟩
    | cons x xs =>
      simp only [List.cons_append, List.cons.injEq] at hp
      simp only [List.mem_cons, not_or] at hn
      refine ⟨Or.inr ⟨xs, hp.2, hn.2⟩, ?_⟩
      constructor
      · intro he
        exact absurd (he.symm.trans hp.1) hn.1
      · intro hr
        rw [hr] at hp
        exact absurd hp.2.symm (by simp)

theorem running_append (ws : List (List Event)) (w : List Event) :
    running (ws ++ [w]) = running ws + (if w = [] then 0 else 1) := by
  induction ws with
  | nil => simp [running]
  | cons x xs ih => simp [running, ih, Nat.add_assoc]

theorem running_set (ws : List (List Event)) (i : Nat) (e : Event) (rest : List Event)
    (h : ws[i]? = some (e :: rest)) :
    running (ws.set i rest) + (if rest = [] then 1 else 0) = running ws := by
  induction ws generalizing i with
  | nil => simp at h
  | cons x xs ih =>
    cases i with
    | zero =>
      simp only [List.getElem?_cons_zero, Option.some.injEq] at h
      subst h
      by_cases hr : rest = []
      · simp [running, hr]; omega
      · simp [running, hr]
    | succ j =>
      simp only [List.getElem?_cons_succ] at h
      have := ih j h
      simp only [List.set_cons_succ, running]
      omega

theorem running_eq_zero (ws : List (List Event)) (h : running ws = 0) : ∀ w ∈ ws, w = [] := by
  induction ws with
  | nil => simp
  | cons x xs ih =>
    intro w hw
    simp only [running] at h
    by_cases hx : x = []
    · rcases List.mem_cons.1 hw with rfl | hm
      · exact hx
      · exact ih (by simp [hx] at h; exact h) w hm
    · simp [hx] at h

theorem download_ne_nil (o : Outcome) (url out : Str) : download o url out ≠ [] := by
  obtain ⟨pre, h, -⟩ := download_done_last o url out
  rw [h]; simp

theorem Inv_init (members : List Member) : Inv members (initSys members) :=
  ⟨by simp [initSys], by simp [initSys, running], by simp [initSys, remaining],
    by simp [initSys]⟩

theorem Inv_step (avatarURL : User → Str → Str) (outcome : Nat → Outcome) (out : Str)
    (members : List Member) (a : Actor) (s t : Sys) (hi : Inv members s)
    (hs : step avatarURL outcome out a s = some t) : Inv members t := by
  obtain ⟨counter, workers, pc⟩ := s
  obtain ⟨hwf, hc, hl, hf⟩ := hi
  simp only at hwf hc hl hf
  cases a with
  | main =>
    cases pc with
    | launching rest =>
      cases rest with
      | nil =>
        simp only [step, Option.some.injEq] at hs
        subst hs
        exact ⟨hwf, hc, fun _ => by simpa [remaining] using hl (by simp), by simp⟩
      | cons m ms =>
        obtain ⟨u⟩ := m
        cases u with
        | none =>
          simp only [step, Option.some.injEq] at hs
          subst hs
          exact ⟨hwf, hc, fun hne => absurd rfl hne, by simp⟩
        | some user =>
          have hl2 := hl (by simp)
          by_cases h : user.Avatar = []
          · have he : eligible ⟨some user⟩ = false := by simp [eligible, h]
            simp only [step, h, ne_eq, not_true_eq_false, if_false, Option.some.injEq] at hs
            subst hs
            exact ⟨hwf, hc, fun _ => by simpa [remaining, he] using hl2, by simp⟩
          · have he : eligible ⟨some user⟩ = true := by simp [eligible, h]
            simp only [step, h, ne_eq, not_false_eq_true, if_true, Option.some.injEq] at hs
            subst hs
            refine ⟨?_, ?_, fun _ => ?_, by simp⟩
            · intro w hw
              rcases List.mem_append.1 hw with hw | hw
              · exact hwf w hw
              · rw [List.mem_singleton.1 hw]
                exact Or.inr (download_done_last _ _ _)
            · simp only [running_append, download_ne_nil, if_false, hc]
              push_cast
              rfl
            · have hlen : (List.filter eligible (⟨some user⟩ :: ms)).length =
                  (List.filter eligible ms).length + 1 := by simp [List.filter_cons, he]
              simp only [remaining] at hl2 ⊢
              rw [hlen] at hl2
              simp only [List.length_append, List.length_singleton]
              omega
    | waiting =>
      by_cases h0 : counter = 0
      · simp only [step, h0, if_true, Option.some.injEq] at hs
        subst hs
        exact ⟨hwf, by simpa [h0] using hc,
          fun _ => by simpa [remaining] using hl (by simp), fun _ => rfl⟩
      · simp [step, h0] at hs
    | finished => simp [step] at hs
    | panicked => simp [step] at hs
  | worker i =>
    simp only [step] at hs
    cases hw : workers[i]? with
    | none => simp [hw] at hs
    | some w =>
      cases w with
      | nil => simp [hw] at hs
      | cons e rest =>
        simp only [hw, Option.some.injEq] at hs
        subst hs
        have hmem : (e :: rest) ∈ workers := List.getElem?_mem hw
        obtain ⟨hwr, hiff⟩ := wellFormed_tail e rest (hwf _ hmem)
        have hrun := running_set workers i e rest hw
        refine ⟨?_, ?_, ?_, ?_⟩
        · intro w hw2
          rcases List.mem_or_eq_of_mem_set hw2 with h | h
          · exact hwf w h
          · rw [h]; exact hwr
        · simp only
          by_cases he : e = Event.wgDone
          · have hr : rest = [] := hiff.1 he
            subst hr
            simp only [he, if_true, hc]
            simp only [if_true] at hrun
            omega
          · have hr : rest ≠ [] := fun h => he (hiff.2 h)
            simp only [he, if_false, hc]
            simp only [hr, if_false] at hrun
            omega
        · simpa using hl
        · intro hfin
          have h0 := hf hfin
          have hz : running workers = 0 := by rw [hc] at h0; exact_mod_cast h0
          exact absurd (running_eq_zero workers hz _ hmem) (List.cons_ne_nil _ _)

theorem Inv_run (avatarURL : User → Str → Str) (outcome : Nat → Outcome) (out : Str)
    (members : List Member) (sched : List Actor) (s t : Sys) (hi : Inv members s)
    (hr : run avatarURL outcome out sched s = some t) : Inv members t := by
  induction sched generalizing s with
  | nil =>
    simp only [run, Option.some.injEq] at hr
    exact hr ▸ hi
  | cons a as ih =>
    simp only [run] at hr
    cases hs : step avatarURL outcome out a s with
    | none => simp [hs] at hr
    | some u =>
      rw [hs] at hr
      exact ih u (Inv_step avatarURL outcome out members a s u hi hs) hr

/-! ## Lemmas on the loop of `main` -/

theorem attempts_append (a b : List MainEvent) : attempts (a ++ b) = attempts a ++ attempts b := by
  simp [attempts]

theorem completions_append (a b : List MainEvent) :
    completions (a ++ b) = completions a ++ completions b := by
  simp [completions]

/-- One iteration of the loop of `main` has the effects the specification prescribes. -/
theorem processGroup_eq (avatarURL : User → Str → Str) (baseDir serverID : Str)
    (env : GroupEnv) :
    processGroup avatarURL baseDir serverID env = groupEvents avatarURL baseDir (serverID, env) := by
  obtain ⟨guild, mkdirErr, members⟩ := env
  cases guild with
  | none => simp [processGroup, groupEvents]
  | some name =>
    cases mkdirErr with
    | true => simp [processGroup, groupEvents]
    | false =>
      cases members with
      | none => simp [processGroup, groupEvents]
      | some ms =>
        obtain ⟨h1, -, h3⟩ := dispatchLoop_spec avatarURL (Join [baseDir, sanitize name]) ms
          ⟨0, [], false⟩ rfl
        simp only [List.nil_append] at h1
        simp only [processGroup, groupEvents, dispatch, h1, h3, Bool.false_eq_true, if_false]
        cases hall : ms.all hasUser <;> simp

theorem panic_mem_groupEvents (avatarURL : User → Str → Str) (baseDir : Str)
    (g : Str × GroupEnv) :
    MainEvent.panic ∈ groupEvents avatarURL baseDir g ↔ groupPanics g.2 = true := by
  obtain ⟨serverID, guild, mkdirErr, members⟩ := g
  cases guild with
  | none => simp [groupEvents, groupPanics, groupOk]
  | some name =>
    cases mkdirErr with
    | true => simp [groupEvents, groupPanics, groupOk]
    | false =>
      cases members with
      | none => simp [groupEvents, groupPanics, groupOk]
      | some ms =>
        cases hall : ms.all hasUser
        · have : ms.any (fun m => !hasUser m) = true := by
            rw [← Bool.not_eq_true, List.all_eq_true] at hall
            push_neg at hall
            obtain ⟨m, hm, hu⟩ := hall
            exact List.any_eq_true.2 ⟨m, hm, by simpa using hu⟩
          simp [groupEvents, groupPanics, groupOk, hall, this]
        · have : ms.any (fun m => !hasUser m) = false := by
            rw [List.all_eq_true] at hall
            rw [← Bool.not_eq_true, List.any_eq_true]
            rintro ⟨m, hm, hu⟩
            simp [hall m hm] at hu
          simp [groupEvents, groupPanics, groupOk, hall, this]

/-- The loop of `main` has the effects the specification prescribes for the groups up to
and including the first one whose dispatch panics. -/
theorem mainLoop_eq (avatarURL : User → Str → Str) (baseDir : Str)
    (groups : List (Str × GroupEnv)) :
    mainLoop avatarURL baseDir groups =
      (reached groups).flatMap (groupEvents avatarURL baseDir) := by
  induction groups with
  | nil => rfl
  | cons g gs ih =>
    obtain ⟨serverID, env⟩ := g
    have hp := panic_mem_groupEvents avatarURL baseDir (serverID, env)
    simp only [mainLoop, processGroup_eq, reached]
    by_cases h : groupPanics env = true
    · simp [hp.2 h, h]
    · have hn : MainEvent.panic ∉ groupEvents avatarURL baseDir (serverID, env) :=
        fun hm => h (hp.1 hm)
      simp [hn, h, ih]

theorem reached_of_no_panic (groups : List (Str × GroupEnv))
    (h : ∀ g ∈ groups, groupPanics g.2 = false) : reached groups = groups := by
  induction groups with
  | nil => rfl
  | cons g gs ih =>
    have hg := h g (List.mem_cons_self _ _)
    simp [reached, hg, ih (fun x hx => h x (List.mem_cons_of_mem _ hx))]

theorem groupEvents_proj (avatarURL : User → Str → Str) (baseDir : Str) (g : Str × GroupEnv)
    (h : groupPanics g.2 = false) :
    attempts (groupEvents avatarURL baseDir g) = [g.1] ∧
    completions (groupEvents avatarURL baseDir g) =
      (if groupOk g.2 then [g.2.guild.getD []] else []) := by
  obtain ⟨serverID, guild, mkdirErr, members⟩ := g
  cases guild with
  | none => simp [groupEvents, attempts, completions, groupOk]
  | some name =>
    cases mkdirErr with
    | true => simp [groupEvents, attempts, completions, groupOk]
    | false =>
      cases members with
      | none => simp [groupEvents, attempts, completions, groupOk]
      | some ms =>
        cases hall : ms.all hasUser
        · exfalso
          have hp := (panic_mem_groupEvents avatarURL baseDir
            (serverID, ⟨some name, false, some ms⟩)).1 (by simp [groupEvents, hall])
          simp only at hp h
          rw [h] at hp
          exact Bool.false_ne_true hp
        · simp [groupEvents, attempts, completions, groupOk, hall, List.filterMap_map,
            Function.comp_def]

theorem flatMap_groupEvents_proj (avatarURL : User → Str → Str) (baseDir : Str)
    (groups : List (Str × GroupEnv)) (h : ∀ g ∈ groups, groupPanics g.2 = false) :
    attempts (groups.flatMap (groupEvents avatarURL baseDir)) = groups.map (fun g => g.1) ∧
    completions (groups.flatMap (groupEvents avatarURL baseDir)) =
      (groups.filter (fun g => groupOk g.2)).map (fun g => g.2.guild.getD []) := by
  induction groups with
  | nil => simp [attempts, completions]
  | cons g gs ih =>
    obtain ⟨h1, h2⟩ := groupEvents_proj avatarURL baseDir g (h g (List.mem_cons_self _ _))
    obtain ⟨i1, i2⟩ := ih (fun x hx => h x (List.mem_cons_of_mem _ hx))
    simp only [List.flatMap_cons, attempts_append, completions_append, h1, h2, i1, i2,
      List.map_cons, List.filter_cons]
    by_cases hok : groupOk g.2 = true
    · simp [hok]
    · simp [hok]

/-! ## The properties of the specification -/

/-- C1: for every string `s`, `sanitize s` has the length of `s`, and at every position
its character is `_` where `s` has one of `: * ? " < > |` and the character of `s`
otherwise. -/
theorem sanitize_pointwise (s : Str) :
    (sanitize s).length = s.length ∧
    ∀ i : Nat, (sanitize s)[i]? =
      s[i]?.map (fun c =>
        if c ∈ [':', '*', '?', Char.ofNat 34, '<', '>', '|'] then '_' else c) := by
  have hf : (fun c => if invalidChars c = true then '_' else c) =
      (fun c => if c ∈ [':', '*', '?', Char.ofNat 34, '<', '>', '|'] then '_' else c) := by
    funext c
    by_cases h : invalidChars c = true
    · rw [if_pos h, if_pos ((invalidChars_iff c).1 h)]
    · rw [if_neg h, if_neg (fun hm => h ((invalidChars_iff c).2 hm))]
  rw [sanitize_eq_map, hf]
  exact ⟨List.length_map _ _, fun i => List.getElem?_map _ _ _⟩

/-- C3, as stated, fails: a URL that ends in `.webp` can resolve to a name that does not end
in `.png`, when `.webp` occurs twice in the base name, when the query string holds a `/`,
or when the final `.webp` stands after a `?`. -/
theorem webp_url_without_png_name :
    (webp <:+ "https://h/a.webp.webp".toList ∧
      avatarFileName "https://h/a.webp.webp".toList = some "a.png.webp".toList ∧
      ¬ png <:+ "a.png.webp".toList) ∧
    ("https://h/a.webp?u=/b".toList = "https://h/a".toList ++ webp ++ '?' :: "u=/b".toList ∧
      avatarFileName "https://h/a.webp?u=/b".toList = some "b".toList ∧
      ¬ png <:+ "b".toList) ∧
    (webp <:+ "https://h/a?b.webp".toList ∧
      avatarFileName "https://h/a?b.webp".toList = some "a".toList ∧
      ¬ png <:+ "a".toList) := by
  decide

/-- C3, amended: for every URL the resolved file name contains no `?`; and when the URL
is `pre ++ stem ++ ".webp" ++ query`, with `pre` empty or ending in `/`, `stem` free of `/`,
of `?` and of `.webp`, and `query` empty or a `?` followed by characters other than `/`,
the resolved file name is `stem ++ ".png"`, which ends in `.png`. -/
theorem webp_name_resolves_to_png :
    (∀ url : Str, ∃ name, avatarFileName url = some name ∧ '?' ∉ name) ∧
    (∀ pre stem query : Str,
      (pre = [] ∨ ∃ q, pre = q ++ ['/']) →
      '/' ∉ stem → '?' ∉ stem → ¬ webp <:+: stem →
      (query = [] ∨ ∃ q, query = '?' :: q ∧ '/' ∉ q) →
      avatarFileName (pre ++ stem ++ webp ++ query) = some (stem ++ png) ∧
        png <:+ stem ++ png) := by
  refine ⟨fun url => ⟨_, avatarFileName_eq url, ?_⟩, ?_⟩
  · exact not_mem_replaceFirst '?' webp png _ (not_mem_takeWhile_ne '?' (Base url)) (by decide)
  intro pre stem query hpre hslash hquest hwebp hquery
  have hsq : '/' ∉ query := by
    rcases hquery with rfl | ⟨q, rfl, hq⟩
    · simp
    · simpa using hq
  have hbase : Base (pre ++ (stem ++ webp ++ query)) = stem ++ webp ++ query :=
    Base_append pre _ hpre (by simp [webp]) (by simp [webp, hslash, hsq])
  have hcut : (stem ++ webp ++ query).takeWhile (fun c => c != '?') = stem ++ webp := by
    apply takeWhile_append_stop
    · intro x hx
      have : x ≠ '?' := by
        rintro rfl
        rcases List.mem_append.1 hx with h | h
        · exact hquest h
        · revert h; decide
      simpa using this
    · rcases hquery with rfl | ⟨q, rfl, -⟩
      · exact Or.inl rfl
      · exact Or.inr ⟨'?', q, rfl, by simp⟩
  refine ⟨?_, List.suffix_append _ _⟩
  rw [avatarFileName_eq, List.append_assoc, List.append_assoc, ← List.append_assoc stem,
    hbase, hcut, replaceFirst_webp stem hwebp]

/-- C3, amended, at the URL `https://h/a/abc.webp?size=512`. -/
theorem webp_name_resolves_to_png_witness :
    avatarFileName ("https://h/a/".toList ++ "abc".toList ++ webp ++ "?size=512".toList) =
        some ("abc".toList ++ png) ∧
      png <:+ "abc".toList ++ png :=
  webp_name_resolves_to_png.2 "https://h/a/".toList "abc".toList "?size=512".toList
    (Or.inr ⟨"https://h/a".toList, by decide⟩) (by decide) (by decide) (by decide)
    (Or.inr ⟨"size=512".toList, by decide, by decide⟩)

/-- C4, as stated, fails: for `https://h/a.webp?size=512` the base name without its query
string is `a.webp`, and the resolved name is `a.png`. -/
theorem query_url_name_differs :
    '?' ∈ "https://h/a.webp?size=512".toList ∧
    (Base "https://h/a.webp?size=512".toList).takeWhile (fun c => c != '?') = "a.webp".toList ∧
    avatarFileName "https://h/a.webp?size=512".toList = some "a.png".toList ∧
    avatarFileName "https://h/a.webp?size=512".toList ≠
      some ((Base "https://h/a.webp?size=512".toList).takeWhile (fun c => c != '?')) := by
  decide

/-- C4, amended: for every URL, with or without a query string, the resolved file name is
the base name of the URL, cut before its first `?`, in which the first `.webp` is then
replaced by `.png`. -/
theorem name_is_cut_base_rewritten (url : Str) :
    avatarFileName url =
      some (replaceFirst webp png ((Base url).takeWhile (fun c => c != '?'))) :=
  avatarFileName_eq url

/-- C10: for every URL the split of its base name on `?` has an element at index 0, and the
resolution of the file name returns a name: it never panics. -/
theorem avatarFileName_total (url : Str) :
    (∃ part, (split (Base url) ['?'])[0]? = some part) ∧
    ∃ name, avatarFileName url = some name :=
  ⟨⟨_, split_single_head '?' (Base url)⟩, ⟨_, avatarFileName_eq url⟩⟩

/-- C2 fails on the code: with the output root `out`, the guild `MyServer` and a member
whose avatar is `abc123`, `main` hands the directory `out/MyServer` to the worker, and the
worker creates `out/MyServer/out/abc123.png`, not `out/MyServer/abc123.png`: line 41 appends
the sanitized name of the parent of `out` to the directory it was given. -/
theorem worker_path_has_extra_component :
    launches (processGroup exampleAvatarURL (Join [".".toList, "out".toList]) "G1".toList
        ⟨some "MyServer".toList, false, some [⟨some ⟨"abc123".toList⟩⟩]⟩) =
      [("https://cdn.example/avatars/abc123.webp?size=512".toList, "out/MyServer".toList)] ∧
    Join [Join [".".toList, "out".toList], sanitize "MyServer".toList] = "out/MyServer".toList ∧
    avatarFileName "https://cdn.example/avatars/abc123.webp?size=512".toList =
      some "abc123.png".toList ∧
    Event.create "out/MyServer/out/abc123.png".toList ∈
      download allFine "https://cdn.example/avatars/abc123.webp?size=512".toList
        "out/MyServer".toList ∧
    filePathOf "https://cdn.example/avatars/abc123.webp?size=512".toList "out/MyServer".toList =
      some "out/MyServer/out/abc123.png".toList ∧
    filePathOf "https://cdn.example/avatars/abc123.webp?size=512".toList "out/MyServer".toList ≠
      some (Join [Join [Join [".".toList, "out".toList], sanitize "MyServer".toList],
        "abc123.png".toList]) := by
  decide

/-- C6: every run of `download` performs `wg.Done()` exactly once, as its last effect; and
in every state the system reaches from line 123 under any schedule and any outcomes of
the workers, once `wg.Wait()` has returned, a goroutine has been started for each eligible
member, each of them has returned, and the counter is zero. -/
theorem completion_after_all_workers (avatarURL : User → Str → Str) (outcome : Nat → Outcome)
    (out : Str) (members : List Member) (sched : List Actor) (s : Sys)
    (hrun : run avatarURL outcome out sched (initSys members) = some s)
    (hfin : s.pc = Pc.finished) :
    (∀ o url, (download o url out).count Event.wgDone = 1 ∧
      (download o url out).getLast? = some Event.wgDone) ∧
    s.workers.length = (members.filter eligible).length ∧
    (∀ w ∈ s.workers, w = []) ∧ s.counter = 0 := by
  have hi := Inv_run avatarURL outcome out members sched _ s (Inv_init members) hrun
  have h0 : s.counter = 0 := hi.fin hfin
  refine ⟨fun o url => ?_, ?_, ?_, h0⟩
  · obtain ⟨pre, hp, hn⟩ := download_done_last o url out
    rw [hp]
    exact ⟨by simp [List.count_eq_zero_of_not_mem hn], by simp⟩
  · have hl := hi.launched (by rw [hfin]; simp)
    rw [hfin] at hl
    simpa [remaining] using hl
  · have hz : running s.workers = 0 := by
      have hc := hi.counter
      rw [h0] at hc
      exact_mod_cast hc.symm
    exact running_eq_zero s.workers hz

/-- C6 at three members, two of them eligible, under an interleaved schedule. -/
theorem completion_after_all_workers_witness :
    (∀ o url, (download o url "out/G".toList).count Event.wgDone = 1 ∧
      (download o url "out/G".toList).getLast? = some Event.wgDone) ∧
    ([[], []] : List (List Event)).length = (exampleMembers.filter eligible).length ∧
    (∀ w ∈ ([[], []] : List (List Event)), w = []) ∧ (0 : Int) = 0 :=
  completion_after_all_workers exampleAvatarURL exampleOutcome "out/G".toList exampleMembers
    exampleSchedule ⟨0, [[], []], Pc.finished⟩ (by decide) rfl

/-- C7, as stated, fails: the three steps of both groups succeed, but the listing of the
first holds a member without user object; the dispatch of the first group panics, so no
completion is reported for it and the second identifier is never attempted. -/
theorem missing_user_stops_later_groups :
    groupsWithoutUser.map (fun g => g.1) = ["G1".toList, "G2".toList] ∧
    groupsWithoutUser.all (fun g => groupOk g.2) = true ∧
    attempts (mainLoop exampleAvatarURL "out".toList groupsWithoutUser) = ["G1".toList] ∧
    completions (mainLoop exampleAvatarURL "out".toList groupsWithoutUser) = [] ∧
    mainLoop exampleAvatarURL "out".toList groupsWithoutUser =
      [MainEvent.guild "G1".toList, MainEvent.mkdirAll "out/First".toList,
        MainEvent.guildMembers "G1".toList, MainEvent.panic] := by
  decide

/-- C7, amended: for every list of server identifiers and every outcome of the steps of
each iteration, the effects of the loop of `main` are, in the configured order, those the
specification prescribes for each identifier, up to and including the first group whose
listing holds a member without user object, where the program panics.  When no listing
holds such a member, every identifier is attempted in order; a failed step ends its
iteration right after the failure is logged and the next identifier follows; and the
groups for which workers are launched, waited for and then reported complete are exactly
those whose three steps all succeed. -/
theorem mainLoop_follows_spec (avatarURL : User → Str → Str) (baseDir : Str)
    (groups : List (Str × GroupEnv)) :
    mainLoop avatarURL baseDir groups =
      (reached groups).flatMap (groupEvents avatarURL baseDir) ∧
    ((∀ g ∈ groups, groupPanics g.2 = false) →
      mainLoop avatarURL baseDir groups = groups.flatMap (groupEvents avatarURL baseDir) ∧
      attempts (mainLoop avatarURL baseDir groups) = groups.map (fun g => g.1) ∧
      completions (mainLoop avatarURL baseDir groups) =
        (groups.filter (fun g => groupOk g.2)).map (fun g => g.2.guild.getD [])) := by
  refine ⟨mainLoop_eq avatarURL baseDir groups, fun h => ?_⟩
  have he : mainLoop avatarURL baseDir groups =
      groups.flatMap (groupEvents avatarURL baseDir) := by
    rw [mainLoop_eq, reached_of_no_panic groups h]
  obtain ⟨h1, h2⟩ := flatMap_groupEvents_proj avatarURL baseDir groups h
  exact ⟨he, by rw [he, h1], by rw [he, h2]⟩

/-- C7, amended, at three groups: a failed metadata fetch, a failed member listing, and a
group whose three steps succeed. -/
theorem mainLoop_follows_spec_witness :
    mainLoop exampleAvatarURL "out".toList exampleGroups =
        exampleGroups.flatMap (groupEvents exampleAvatarURL "out".toList) ∧
      attempts (mainLoop exampleAvatarURL "out".toList exampleGroups) =
        exampleGroups.map (fun g => g.1) ∧
      completions (mainLoop exampleAvatarURL "out".toList exampleGroups) =
        (exampleGroups.filter (fun g => groupOk g.2)).map (fun g => g.2.guild.getD []) :=
  (mainLoop_follows_spec exampleAvatarURL "out".toList exampleGroups).2 (by decide)

/-- C8 fails on the code: when `http.Get` succeeds with a status other than 200 (here 404),
`download` returns at line 29, before `defer resp.Body.Close()` is registered, and the body
it obtained is never closed; on the paths that pass line 31 the body is closed. -/
theorem body_left_open_on_bad_status (url out : Str) :
    download ⟨false, 404, false, false, false⟩ url out =
      [Event.httpGet url, Event.bodyOpen, Event.wgDone] ∧
    Event.bodyOpen ∈ download ⟨false, 404, false, false, false⟩ url out ∧
    Event.bodyClose ∉ download ⟨false, 404, false, false, false⟩ url out ∧
    ∀ mkdirErr createErr copyErr : Bool,
      Event.bodyClose ∈ download ⟨false, 200, mkdirErr, createErr, copyErr⟩ url out := by
  refine ⟨by simp [download], by simp [download], by simp [download], ?_⟩
  intro m c k
  obtain ⟨name, hn⟩ : ∃ name, avatarFileName url = some name := ⟨_, avatarFileName_eq url⟩
  cases m <;> cases c <;> cases k <;> simp [download, hn]

/-- C9, as stated, fails: two distinct URLs whose base names agree (two users with the same
avatar identifier, or one URL with two query strings) resolve to the same file path. -/
theorem distinct_urls_same_path :
    ("https://cdn.example/avatars/1/abc.png?size=512".toList ≠
        "https://cdn.example/avatars/2/abc.png?size=512".toList ∧
      filePathOf "https://cdn.example/avatars/1/abc.png?size=512".toList "out/G".toList =
        filePathOf "https://cdn.example/avatars/2/abc.png?size=512".toList "out/G".toList) ∧
    ("https://cdn.example/avatars/1/abc.png?size=512".toList ≠
        "https://cdn.example/avatars/1/abc.png?size=64".toList ∧
      filePathOf "https://cdn.example/avatars/1/abc.png?size=512".toList "out/G".toList =
        filePathOf "https://cdn.example/avatars/1/abc.png?size=64".toList "out/G".toList) := by
  decide

/-- C9, amended: for every destination directory and every two URLs whose resolved file
names are ordinary (not empty, free of `/`, neither `.` nor `..`), the two file paths are
equal exactly when the two resolved names are equal; so URLs that resolve to distinct
names give distinct paths. -/
theorem same_path_iff_same_name (out url1 url2 name1 name2 : Str)
    (h1 : avatarFileName url1 = some name1) (h2 : avatarFileName url2 = some name2)
    (o1 : ordinaryName name1) (o2 : ordinaryName name2) :
    filePathOf url1 out = filePathOf url2 out ↔ name1 = name2 := by
  obtain ⟨pre, hpre⟩ := Join_ordinary (serverDirOf out)
  simp only [filePathOf, h1, h2, Option.map_some', Option.some.injEq, hpre name1 o1,
    hpre name2 o2]
  exact List.append_right_inj pre

/-- C9, amended, at the URLs of the avatars `abc` and `abd` in the directory `out/G`. -/
theorem same_path_iff_same_name_witness :
    filePathOf "https://cdn.example/avatars/1/abc.webp".toList "out/G".toList =
        filePathOf "https://cdn.example/avatars/2/abd.webp".toList "out/G".toList ↔
      "abc.png".toList = "abd.png".toList :=
  same_path_iff_same_name "out/G".toList "https://cdn.example/avatars/1/abc.webp".toList
    "https://cdn.example/avatars/2/abd.webp".toList "abc.png".toList "abd.png".toList
    (by decide) (by decide) (by decide) (by decide)

end AvatarDownloader
